import Mathlib

/-!
Shallow embedding of the `rag-assistant` repository's pure query-processing,
evaluation and utility layers, together with theorems settling the spec
claims about them.

Strings are modelled as `List Char` (Python `str` restricted to its ASCII
behaviour where regex character classes are involved), Python `float`
arithmetic as exact rationals, Python exceptions as `Except`, and Python
dictionaries as association lists.
-/

/- ### Character classes (ASCII behaviour of Python regex classes) -/

/-- Python whitespace class `\s` (ASCII): space, tab, newline, carriage
return, vertical tab, form feed.  Also the set stripped by `str.strip()`. -/
def pySpace (c : Char) : Bool :=
  decide (c.toNat = 32 ∨ c.toNat = 9 ∨ c.toNat = 10 ∨ c.toNat = 13 ∨
    c.toNat = 11 ∨ c.toNat = 12)

/-- Character class `[\n\r\t]` used by `clean_query`. -/
def nrtChar (c : Char) : Bool :=
  decide (c.toNat = 10 ∨ c.toNat = 13 ∨ c.toNat = 9)

/-- Python word class `\w` (ASCII): letters, digits, underscore. -/
def wordChar (c : Char) : Bool :=
  decide ((65 ≤ c.toNat ∧ c.toNat ≤ 90) ∨ (97 ≤ c.toNat ∧ c.toNat ≤ 122) ∨
    (48 ≤ c.toNat ∧ c.toNat ≤ 57) ∨ c.toNat = 95)

/-- Characters kept by `clean_query`'s final `re.sub(r"[^\w\s\?\-\.]", "", ·)`:
word characters, whitespace, `?`, `-`, `.`. -/
def keepChar (c : Char) : Bool :=
  wordChar c || pySpace c || decide (c.toNat = 63 ∨ c.toNat = 45 ∨ c.toNat = 46)

/-- Convenience conversion from Lean string literals to the `List Char` model. -/
def s2l (s : String) : List Char :=
  s.data

/- ### Python string primitives -/

/-- Drop trailing characters satisfying `p` (the right half of `str.strip()`). -/
def dropTrail (p : Char → Bool) : List Char → List Char
  | [] => []
  | c :: cs =>
    match dropTrail p cs with
    | [] => if p c then [] else [c]
    | ds => c :: ds

/-- Python `str.strip()`: remove leading and trailing whitespace. -/
def pyStrip (l : List Char) : List Char :=
  dropTrail pySpace (l.dropWhile pySpace)

/-- Worker for `collapseRuns`: the flag records whether we are inside a run
of characters satisfying `p` whose replacement has already been emitted. -/
def collapseAux (p : Char → Bool) (r : Char) : Bool → List Char → List Char
  | _, [] => []
  | inRun, c :: cs =>
    if p c then
      if inRun then collapseAux p r true cs
      else r :: collapseAux p r true cs
    else c :: collapseAux p r false cs

/-- Replace each maximal run of characters satisfying `p` by the single
character `r`; models `re.sub(r"[X]+", r, ·)` for a character class `X`. -/
def collapseRuns (p : Char → Bool) (r : Char) (l : List Char) : List Char :=
  collapseAux p r false l

/-- Python `str.lower()` on a character list (ASCII case mapping). -/
def lowerL (l : List Char) : List Char :=
  l.map Char.toLower

/- ### `clean_query` (src/rag/query_processing.py, lines 18-24) -/

/-- Model of `clean_query`: `strip().lower()`, collapse `[\n\r\t]+` runs to a
space, collapse `\s+` runs to a space, then delete every character outside
`[\w\s?\-.]`. -/
def clean_query (q : List Char) : List Char :=
  (collapseRuns pySpace ' ' (collapseRuns nrtChar ' ' (lowerL (pyStrip q)))).filter keepChar

/- ### Tokenization, keyword extraction and classification
(src/rag/query_processing.py, lines 27-41 and 69-73) -/

/-- Worker for `tokenize`: `cur` holds the current word-character run in
reverse order. -/
def tokenizeAux : List Char → List Char → List (List Char)
  | cur, [] => if cur.isEmpty then [] else [cur.reverse]
  | cur, c :: cs =>
    if wordChar c then tokenizeAux (c :: cur) cs
    else if cur.isEmpty then tokenizeAux [] cs
    else cur.reverse :: tokenizeAux [] cs

/-- Model of `re.findall(r"\b\w+\b", ·)`: the maximal runs of word
characters, in order. -/
def tokenize (l : List Char) : List (List Char) :=
  tokenizeAux [] l

/-- Stopword set of `extract_keywords`. -/
def stopwords : List (List Char) :=
  [s2l "what", s2l "is", s2l "the", s2l "a", s2l "an", s2l "of", s2l "and",
    s2l "in", s2l "to", s2l "why", s2l "how", s2l "on"]

/-- Worker for `dedupFirst` carrying the set of values seen so far. -/
def dedupFirstAux {α : Type} [DecidableEq α] (seen : List α) : List α → List α
  | [] => []
  | x :: xs =>
    if x ∈ seen then dedupFirstAux seen xs
    else x :: dedupFirstAux (x :: seen) xs

/-- Order-preserving deduplication keeping first occurrences; models Python
`list(dict.fromkeys(·))`. -/
def dedupFirst {α : Type} [DecidableEq α] (l : List α) : List α :=
  dedupFirstAux [] l

/-- Model of `extract_keywords`: tokenize the lowercased query, drop
stopwords, deduplicate keeping first occurrences. -/
def extract_keywords (query : List Char) : List (List Char) :=
  dedupFirst ((tokenize (lowerL query)).filter (fun w => decide (w ∉ stopwords)))

/-- Does `pat` occur at the start of the text? -/
def startsWithL : List Char → List Char → Bool
  | [], _ => true
  | _ :: _, [] => false
  | a :: as, b :: bs => a == b && startsWithL as bs

/-- Python substring containment `pat in text` on character lists. -/
def containsSubstr (pat : List Char) : List Char → Bool
  | [] => pat.isEmpty
  | b :: bs => startsWithL pat (b :: bs) || containsSubstr pat bs

/-- Keyword list for the factual category of `classify_query`. -/
def factual_keywords : List (List Char) :=
  [s2l "when", s2l "where", s2l "who", s2l "what", s2l "which"]

/-- Keyword list for the conceptual category of `classify_query`. -/
def conceptual_keywords : List (List Char) :=
  [s2l "why", s2l "how", s2l "explain", s2l "describe"]

/-- Keyword list for the procedural category of `classify_query`. -/
def procedural_keywords : List (List Char) :=
  [s2l "steps", s2l "process", s2l "how to"]

/-- Model of `classify_query`: lowercase the query, then test the keyword
lists by substring containment in priority order procedural, conceptual,
factual, generic. -/
def classify_query (query : List Char) : String :=
  if procedural_keywords.any (fun k => containsSubstr k (lowerL query)) then "procedural"
  else if conceptual_keywords.any (fun k => containsSubstr k (lowerL query)) then "conceptual"
  else if factual_keywords.any (fun k => containsSubstr k (lowerL query)) then "factual"
  else "generic"

/- ### Documents and metadata dictionaries -/

/-- Metadata values appearing in this pipeline: strings and integers. -/
inductive MVal where
  | s : String → MVal
  | i : Int → MVal
deriving DecidableEq

/-- Model of a LangChain `Document`: page content plus a metadata dict. -/
structure PyDoc where
  page_content : String
  metadata : List (String × MVal)
deriving DecidableEq

/-- Python `metadata.get(k)`: the value at the first matching key, if any. -/
def dictGet (m : List (String × MVal)) (k : String) : Option MVal :=
  match m.find? (fun p => p.1 == k) with
  | some p => some p.2
  | none => none

/-- Python `d[k] = v` on a dict: overwrite the existing key or append. -/
def dictSet (m : List (String × MVal)) (k : String) (v : MVal) : List (String × MVal) :=
  if m.any (fun p => p.1 == k) then m.map (fun p => if p.1 == k then (k, v) else p)
  else m ++ [(k, v)]

/-- Membership of a key in a metadata dict. -/
def hasKey (m : List (String × MVal)) (k : String) : Bool :=
  m.any (fun p => p.1 == k)

/- ### Retrieval evaluation (src/rag/evaluation.py) -/

/-- Python `s in relevant_docs` for an optional metadata value against a list
of source names: true only for a present string value occurring in the list. -/
def srcMem (s : Option MVal) (relevant_docs : List String) : Bool :=
  match s with
  | some (MVal.s v) => relevant_docs.contains v
  | _ => false

/-- Model of `precision_at_k` (evaluation.py, lines 12-16): hits among the
top-`k` retrieved sources divided by `k`, and `0.0` when `k = 0`. -/
def precision_at_k (retrieved_docs : List PyDoc) (relevant_docs : List String) (k : Nat) : ℚ :=
  if 0 < k then
    ((((retrieved_docs.take k).map (fun d => dictGet d.metadata "source")).filter
      (fun s => srcMem s relevant_docs)).length : ℚ) / (k : ℚ)
  else 0

/-- Model of `recall_at_k` (evaluation.py, lines 19-23): hits among the
top-`k` retrieved sources divided by `len(relevant_docs)`, and `0.0` when
`relevant_docs` is empty. -/
def recall_at_k (retrieved_docs : List PyDoc) (relevant_docs : List String) (k : Nat) : ℚ :=
  if relevant_docs.isEmpty then 0
  else ((((retrieved_docs.take k).map (fun d => dictGet d.metadata "source")).filter
    (fun s => srcMem s relevant_docs)).length : ℚ) / (relevant_docs.length : ℚ)

/-- Statement of the spec's reading of Precision@k: the cardinality of the
intersection of the SET of top-`k` sources with the relevant set, over `k`. -/
def setPrecision_at_k (retrieved_docs : List PyDoc) (relevant_docs : List String) (k : Nat) : ℚ :=
  if 0 < k then
    (((dedupFirst ((retrieved_docs.take k).map (fun d => dictGet d.metadata "source"))).filter
      (fun s => srcMem s relevant_docs)).length : ℚ) / (k : ℚ)
  else 0

/-- Statement of the spec's reading of Recall@k: the cardinality of the
intersection of the SET of top-`k` sources with the relevant set, over the
number of relevant sources. -/
def setRecall_at_k (retrieved_docs : List PyDoc) (relevant_docs : List String) (k : Nat) : ℚ :=
  if relevant_docs.isEmpty then 0
  else (((dedupFirst ((retrieved_docs.take k).map (fun d => dictGet d.metadata "source"))).filter
    (fun s => srcMem s relevant_docs)).length : ℚ) / (relevant_docs.length : ℚ)

/-- Inner loop of `mean_reciprocal_rank`: reciprocal rank of the first
relevant document (1-indexed `rank` counter), `0.0` when none is found. -/
def rank_scan (relevant_docs : List String) : Nat → List String → ℚ
  | _, [] => 0
  | rank, d :: ds =>
    if relevant_docs.contains d then (1 : ℚ) / (rank : ℚ)
    else rank_scan relevant_docs (rank + 1) ds

/-- Model of `mean_reciprocal_rank` (evaluation.py, lines 26-36): average of
the per-query reciprocal ranks, `0.0` for an empty query list. -/
def mean_reciprocal_rank (results : List (List String)) (relevant_docs : List String) : ℚ :=
  if (results.map (fun query_results => rank_scan relevant_docs 1 query_results)).isEmpty then 0
  else (results.map (fun query_results => rank_scan relevant_docs 1 query_results)).sum /
    ((results.map (fun query_results => rank_scan relevant_docs 1 query_results)).length : ℚ)

/-- Zero-based index of the first relevant document in a ranked list. -/
def firstHitIdx (relevant_docs : List String) : List String → Option Nat
  | [] => none
  | d :: ds =>
    if relevant_docs.contains d then some 0
    else (firstHitIdx relevant_docs ds).map (fun i => i + 1)

/-- Statement of the spec's reading of a single query's MRR contribution:
`1/rank` at the first relevant hit (rank = index + 1), else `0`. -/
def reciprocal_of_first_hit (relevant_docs : List String) (query_results : List String) : ℚ :=
  match firstHitIdx relevant_docs query_results with
  | some i => (1 : ℚ) / ((i : ℚ) + 1)
  | none => 0

/- ### Unique-source extraction and chunking (src/rag/utils.py) -/

/-- Python `round` at exact rational inputs: round half to even. -/
def pyRoundHalfEven (x : ℚ) : Int :=
  if x - ⌊x⌋ < 1/2 then ⌊x⌋
  else if (1 : ℚ)/2 < x - ⌊x⌋ then ⌊x⌋ + 1
  else if ⌊x⌋ % 2 = 0 then ⌊x⌋ else ⌊x⌋ + 1

/-- Python `round(·, 4)` at exact rational inputs. -/
def round4 (x : ℚ) : ℚ :=
  (pyRoundHalfEven (x * 10000) : ℚ) / 10000

/-- One display entry produced by `get_unique_sources`. -/
structure SourceEntry where
  source : Option MVal
  type : Option MVal
  name : Option MVal
  title : Option MVal
  page : Option MVal
  score : ℚ
deriving DecidableEq

/-- Deduplication key of a retrieval result: `(source, page)` metadata. -/
def pairKey (p : PyDoc × ℚ) : Option MVal × Option MVal :=
  (dictGet p.1.metadata "source", dictGet p.1.metadata "page")

/-- The dict appended by `get_unique_sources` for one kept result. -/
def mkSourceEntry (doc : PyDoc) (score : ℚ) : SourceEntry :=
  { source := dictGet doc.metadata "source"
    type := dictGet doc.metadata "type"
    name := dictGet doc.metadata "name"
    title := dictGet doc.metadata "title"
    page := dictGet doc.metadata "page"
    score := round4 score }

/-- Key of an output entry of `get_unique_sources`. -/
def entryKey (e : SourceEntry) : Option MVal × Option MVal :=
  (e.source, e.page)

/-- Loop of `get_unique_sources` with its `seen_keys` set made explicit. -/
def get_unique_sources_aux (seen : List (Option MVal × Option MVal)) :
    List (PyDoc × ℚ) → List SourceEntry
  | [] => []
  | p :: rest =>
    if pairKey p ∈ seen then get_unique_sources_aux seen rest
    else mkSourceEntry p.1 p.2 :: get_unique_sources_aux (pairKey p :: seen) rest

/-- Model of `get_unique_sources` (utils.py, lines 148-172). -/
def get_unique_sources (docs_and_scores : List (PyDoc × ℚ)) : List SourceEntry :=
  get_unique_sources_aux [] docs_and_scores

/-- Model of `chunk_docs` (utils.py, lines 118-145).  The library text
splitter is abstract: `split cs co doc` stands for
`RecursiveCharacterTextSplitter(chunk_size=cs, chunk_overlap=co,
separators=...).split_documents([doc])`.  Whatever it returns, the loop
overwrites each chunk's metadata with a copy of the parent document's
metadata extended with the `chunk_size` key. -/
def chunk_docs (split : Int → Int → PyDoc → List PyDoc) (docs : List PyDoc)
    (chunk_size chunk_overlap : Int) : List PyDoc :=
  (docs.map (fun doc =>
    (split chunk_size chunk_overlap doc).map (fun chunk =>
      { chunk with metadata := dictSet doc.metadata "chunk_size" (MVal.i chunk_size) }))).flatten

/- ### Query expansion (src/rag/query_processing.py, lines 44-66) -/

/-- Prompt string built by `expand_query` before invoking the model. -/
def promptTemplateText (query : List Char) : List Char :=
  s2l "Rewrite this query into a clearer and more detailed research-oriented form:\n" ++ query

/-- Model of `expand_query`.  `build_llm_result` is the outcome of
`build_llm(settings)`, which the source calls OUTSIDE the `try` block, and
`invoke` is the outcome of the `try` body (`prompt.format` plus
`llm.invoke` plus content extraction) for a given client and prompt.  Only
a failure of `invoke` is caught and replaced by the unexpanded query; a
`build_llm` failure propagates. -/
def expand_query {E L : Type} (build_llm_result : Except E L)
    (invoke : L → List Char → Except E (List Char)) (query : List Char) :
    Except E (List Char) :=
  match build_llm_result with
  | Except.error e => Except.error e
  | Except.ok llm =>
    match invoke llm (promptTemplateText query) with
    | Except.ok response => Except.ok (pyStrip response)
    | Except.error _ => Except.ok query

/- ### Character-level lemmas -/

theorem toLower_toNat_of_upper {c : Char} (h1 : 65 ≤ c.toNat) (h2 : c.toNat ≤ 90) :
    (Char.toLower c).toNat = c.toNat + 32 := by
  unfold Char.toLower
  rw [if_pos ⟨h1, h2⟩]
  show (Char.ofNat (c.toNat + 32)).toNat = c.toNat + 32
  unfold Char.ofNat
  rw [dif_pos (Or.inl (by omega))]
  rfl

theorem toLower_eq_self_of_not_upper {c : Char} (h : ¬(65 ≤ c.toNat ∧ c.toNat ≤ 90)) :
    Char.toLower c = c := by
  unfold Char.toLower
  exact if_neg h

theorem toLower_toLower (c : Char) : Char.toLower (Char.toLower c) = Char.toLower c := by
  by_cases h : 65 ≤ c.toNat ∧ c.toNat ≤ 90
  · have h32 := toLower_toNat_of_upper h.1 h.2
    apply toLower_eq_self_of_not_upper
    omega
  · rw [toLower_eq_self_of_not_upper h]
    exact toLower_eq_self_of_not_upper h

theorem pySpace_toLower (c : Char) : pySpace (Char.toLower c) = pySpace c := by
  by_cases h : 65 ≤ c.toNat ∧ c.toNat ≤ 90
  · have h32 := toLower_toNat_of_upper h.1 h.2
    rw [Bool.eq_iff_iff]
    simp only [pySpace, h32, decide_eq_true_eq]
    omega
  · rw [toLower_eq_self_of_not_upper h]

theorem nrtChar_toLower (c : Char) : nrtChar (Char.toLower c) = nrtChar c := by
  by_cases h : 65 ≤ c.toNat ∧ c.toNat ≤ 90
  · have h32 := toLower_toNat_of_upper h.1 h.2
    rw [Bool.eq_iff_iff]
    simp only [nrtChar, h32, decide_eq_true_eq]
    omega
  · rw [toLower_eq_self_of_not_upper h]

theorem keepChar_toLower (c : Char) : keepChar (Char.toLower c) = keepChar c := by
  by_cases h : 65 ≤ c.toNat ∧ c.toNat ≤ 90
  · have h32 := toLower_toNat_of_upper h.1 h.2
    rw [Bool.eq_iff_iff]
    simp only [keepChar, wordChar, pySpace, h32, Bool.or_eq_true, decide_eq_true_eq]
    omega
  · rw [toLower_eq_self_of_not_upper h]

theorem pySpace_of_nrtChar {c : Char} (h : nrtChar c = true) : pySpace c = true := by
  simp only [nrtChar, decide_eq_true_eq] at h
  simp only [pySpace, decide_eq_true_eq]
  omega

/- ### Lemmas about `collapseAux` -/

theorem mem_collapseAux {p : Char → Bool} {r : Char} {b : Bool} {l : List Char} {c : Char}
    (hc : c ∈ collapseAux p r b l) : c = r ∨ (c ∈ l ∧ p c = false) := by
  induction l generalizing b with
  | nil => simp [collapseAux] at hc
  | cons d ds ih =>
    by_cases hd : p d = true
    · simp only [collapseAux, hd, if_true] at hc
      cases b with
      | true =>
        rcases ih hc with h | h
        · exact Or.inl h
        · exact Or.inr ⟨List.mem_cons_of_mem _ h.1, h.2⟩
      | false =>
        rcases List.mem_cons.mp hc with rfl | hc'
        · exact Or.inl rfl
        · rcases ih hc' with h | h
          · exact Or.inl h
          · exact Or.inr ⟨List.mem_cons_of_mem _ h.1, h.2⟩
    · simp only [collapseAux, hd, if_false] at hc
      rcases List.mem_cons.mp hc with rfl | hc'
      · exact Or.inr ⟨List.mem_cons_self _ _, Bool.not_eq_true _ ▸ hd⟩
      · rcases ih hc' with h | h
        · exact Or.inl h
        · exact Or.inr ⟨List.mem_cons_of_mem _ h.1, h.2⟩

theorem collapseAux_eq_self {p : Char → Bool} {r : Char} {b : Bool} {l : List Char}
    (h : ∀ c ∈ l, p c = false) : collapseAux p r b l = l := by
  induction l generalizing b with
  | nil => rfl
  | cons d ds ih =>
    have hd : p d = false := h d (List.mem_cons_self _ _)
    simp only [collapseAux, hd, Bool.false_eq_true, if_false]
    exact congrArg _ (ih fun c hc => h c (List.mem_cons_of_mem _ hc))

theorem head?_collapseAux {p : Char → Bool} {r : Char} {b : Bool} {l : List Char}
    (h : ∀ c, l.head? = some c → p c = false) : (collapseAux p r b l).head? = l.head? := by
  cases l with
  | nil => rfl
  | cons d ds =>
    have hd : p d = false := h d rfl
    simp only [collapseAux, hd, Bool.false_eq_true, if_false, List.head?_cons]


theorem collapseAux_cons_run {p : Char → Bool} {r d : Char} {ds : List Char}
    (hd : p d = true) : collapseAux p r true (d :: ds) = collapseAux p r true ds := by
  simp only [collapseAux, hd, if_true]

theorem collapseAux_cons_start {p : Char → Bool} {r d : Char} {ds : List Char}
    (hd : p d = true) : collapseAux p r false (d :: ds) = r :: collapseAux p r true ds := by
  simp only [collapseAux, hd, if_true, Bool.false_eq_true, if_false]

theorem collapseAux_cons_keep {p : Char → Bool} {r d : Char} {b : Bool} {ds : List Char}
    (hd : p d = false) : collapseAux p r b (d :: ds) = d :: collapseAux p r false ds := by
  simp only [collapseAux, hd, Bool.false_eq_true, if_false]

theorem head?_collapseAux_true {p : Char → Bool} {r : Char} {l : List Char} {c : Char}
    (hc : (collapseAux p r true l).head? = some c) : p c = false := by
  induction l with
  | nil => simp [collapseAux] at hc
  | cons d ds ih =>
    by_cases hd : p d = true
    · rw [collapseAux_cons_run hd] at hc
      exact ih hc
    · rw [Bool.not_eq_true] at hd
      rw [collapseAux_cons_keep hd, List.head?_cons, Option.some.injEq] at hc
      subst hc
      exact hd

theorem getLast?_collapseAux {p : Char → Bool} {r : Char} {b : Bool} {l : List Char}
    (h : ∀ c, l.getLast? = some c → p c = false) :
    (collapseAux p r b l).getLast? = l.getLast? := by
  induction l generalizing b with
  | nil => rfl
  | cons d ds ih =>
    cases ds with
    | nil =>
      have hd : p d = false := h d rfl
      rw [collapseAux_cons_keep hd]
      rfl
    | cons e es =>
      have h' : ∀ c, (e :: es).getLast? = some c → p c = false := by
        intro c hc
        apply h c
        rw [List.getLast?_cons_cons]
        exact hc
      have hne : (e :: es).getLast?.isSome = true := List.getLast?_isSome.mpr (by simp)
      by_cases hd : p d = true
      · have hx : (collapseAux p r true (e :: es)).getLast? = (e :: es).getLast? := ih h'
        have hxne : (collapseAux p r true (e :: es)) ≠ [] := by
          intro hnil
          rw [hnil] at hx
          rw [← hx] at hne
          simp at hne
        cases b with
        | true =>
          rw [collapseAux_cons_run hd, hx, List.getLast?_cons_cons]
        | false =>
          rw [collapseAux_cons_start hd, List.getLast?_cons_cons]
          cases hcoll : collapseAux p r true (e :: es) with
          | nil => exact absurd hcoll hxne
          | cons y ys =>
            rw [hcoll] at hx
            rw [List.getLast?_cons_cons]
            exact hx
      · rw [Bool.not_eq_true] at hd
        have hx : (collapseAux p r false (e :: es)).getLast? = (e :: es).getLast? := ih h'
        have hxne : (collapseAux p r false (e :: es)) ≠ [] := by
          intro hnil
          rw [hnil] at hx
          rw [← hx] at hne
          simp at hne
        rw [collapseAux_cons_keep hd, List.getLast?_cons_cons]
        cases hcoll : collapseAux p r false (e :: es) with
        | nil => exact absurd hcoll hxne
        | cons y ys =>
          rw [hcoll] at hx
          rw [List.getLast?_cons_cons]
          exact hx

theorem chain'_collapseAux (p : Char → Bool) (r : Char) (b : Bool) (l : List Char) :
    List.Chain' (fun a c => p a = false ∨ p c = false) (collapseAux p r b l) := by
  induction l generalizing b with
  | nil => exact List.chain'_nil
  | cons d ds ih =>
    by_cases hd : p d = true
    · cases b with
      | true =>
        rw [collapseAux_cons_run hd]
        exact ih true
      | false =>
        rw [collapseAux_cons_start hd]
        refine List.chain'_cons'.mpr ⟨?_, ih true⟩
        intro y hy
        exact Or.inr (head?_collapseAux_true hy)
    · rw [Bool.not_eq_true] at hd
      rw [collapseAux_cons_keep hd]
      refine List.chain'_cons'.mpr ⟨?_, ih false⟩
      intro y hy
      exact Or.inl hd

theorem collapseAux_true_eq_false {p : Char → Bool} {r : Char} {l : List Char}
    (h : ∀ c, l.head? = some c → p c = false) :
    collapseAux p r true l = collapseAux p r false l := by
  cases l with
  | nil => rfl
  | cons d ds =>
    have hd : p d = false := h d rfl
    rw [collapseAux_cons_keep hd, collapseAux_cons_keep hd]

theorem collapseAux_eq_self_of_norm {p : Char → Bool} {r : Char} {l : List Char}
    (hr : ∀ c ∈ l, p c = true → c = r)
    (hc : List.Chain' (fun a c => p a = false ∨ p c = false) l) :
    collapseAux p r false l = l := by
  induction l with
  | nil => rfl
  | cons d ds ih =>
    rcases List.chain'_cons'.mp hc with ⟨hhead, htail⟩
    by_cases hd : p d = true
    · have hdr : d = r := hr d (List.mem_cons_self _ _) hd
      have hdsh : ∀ c, ds.head? = some c → p c = false := by
        intro c hch
        rcases hhead c hch with h1 | h1
        · rw [hd] at h1
          exact absurd h1 (by simp)
        · exact h1
      rw [collapseAux_cons_start hd, collapseAux_true_eq_false hdsh,
        ih (fun c hm hp => hr c (List.mem_cons_of_mem _ hm) hp) htail, hdr]
    · rw [Bool.not_eq_true] at hd
      rw [collapseAux_cons_keep hd,
        ih (fun c hm hp => hr c (List.mem_cons_of_mem _ hm) hp) htail]

theorem collapseRuns_idem {p : Char → Bool} {r : Char} (_hp : p r = true) (l : List Char) :
    collapseRuns p r (collapseRuns p r l) = collapseRuns p r l := by
  unfold collapseRuns
  apply collapseAux_eq_self_of_norm
  · intro c hm hpc
    rcases mem_collapseAux hm with h | h
    · exact h
    · rw [h.2] at hpc
      exact absurd hpc (by simp)
  · exact chain'_collapseAux p r false l

/- ### Lemmas about `dropTrail`, `pyStrip` and `dropWhile` -/

theorem mem_dropTrail {p : Char → Bool} {l : List Char} {c : Char}
    (hc : c ∈ dropTrail p l) : c ∈ l := by
  induction l with
  | nil => simp [dropTrail] at hc
  | cons d ds ih =>
    rw [dropTrail] at hc
    cases hdt : dropTrail p ds with
    | nil =>
      rw [hdt] at hc
      by_cases hd : p d = true
      · simp [hd] at hc
      · rw [Bool.not_eq_true] at hd
        simp only [hd, Bool.false_eq_true, if_false, List.mem_singleton] at hc
        exact hc ▸ List.mem_cons_self _ _
    | cons e es =>
      rw [hdt] at hc
      rcases List.mem_cons.mp hc with rfl | hc'
      · exact List.mem_cons_self _ _
      · exact List.mem_cons_of_mem _ (ih (hdt ▸ hc'))

theorem head?_dropTrail {p : Char → Bool} {l : List Char} {c : Char}
    (hc : (dropTrail p l).head? = some c) : l.head? = some c := by
  cases l with
  | nil => simp [dropTrail] at hc
  | cons d ds =>
    rw [dropTrail] at hc
    cases hdt : dropTrail p ds with
    | nil =>
      rw [hdt] at hc
      by_cases hd : p d = true
      · simp [hd] at hc
      · rw [Bool.not_eq_true] at hd
        simp only [hd, Bool.false_eq_true, if_false, List.head?_cons] at hc
        exact hc ▸ rfl
    | cons e es =>
      rw [hdt] at hc
      rw [List.head?_cons] at hc
      exact hc ▸ rfl

theorem getLast?_dropTrail {p : Char → Bool} {l : List Char} {c : Char}
    (hc : (dropTrail p l).getLast? = some c) : p c = false := by
  induction l with
  | nil => simp [dropTrail] at hc
  | cons d ds ih =>
    rw [dropTrail] at hc
    cases hdt : dropTrail p ds with
    | nil =>
      rw [hdt] at hc
      by_cases hd : p d = true
      · simp [hd] at hc
      · rw [Bool.not_eq_true] at hd
        simp only [hd, Bool.false_eq_true, if_false] at hc
        have : c = d := by
          have := hc
          simp at this
          exact this.symm
        exact this ▸ hd
    | cons e es =>
      rw [hdt] at hc
      rw [List.getLast?_cons_cons] at hc
      exact ih (hdt ▸ hc)

theorem dropTrail_eq_self {p : Char → Bool} {l : List Char}
    (h : ∀ c, l.getLast? = some c → p c = false) : dropTrail p l = l := by
  induction l with
  | nil => rfl
  | cons d ds ih =>
    cases ds with
    | nil =>
      have hd : p d = false := h d rfl
      rw [dropTrail]
      simp [dropTrail, hd]
    | cons e es =>
      have h' : ∀ c, (e :: es).getLast? = some c → p c = false := by
        intro c hc
        apply h c
        rw [List.getLast?_cons_cons]
        exact hc
      rw [dropTrail, ih h']

theorem head?_dropWhile_not {p : Char → Bool} {l : List Char} {c : Char}
    (hc : (l.dropWhile p).head? = some c) : p c = false := by
  induction l with
  | nil => simp at hc
  | cons d ds ih =>
    rw [List.dropWhile_cons] at hc
    by_cases hd : p d = true
    · rw [if_pos hd] at hc
      exact ih hc
    · rw [Bool.not_eq_true] at hd
      rw [if_neg (by simp [hd]), List.head?_cons, Option.some.injEq] at hc
      exact hc ▸ hd

theorem dropWhile_eq_self {p : Char → Bool} {l : List Char}
    (h : ∀ c, l.head? = some c → p c = false) : l.dropWhile p = l := by
  cases l with
  | nil => rfl
  | cons d ds =>
    have hd : p d = false := h d rfl
    rw [List.dropWhile_cons, if_neg (by simp [hd])]

theorem mem_pyStrip {l : List Char} {c : Char} (hc : c ∈ pyStrip l) : c ∈ l :=
  List.Sublist.subset (List.dropWhile_sublist pySpace) (mem_dropTrail hc)

theorem head?_pyStrip_not {l : List Char} {c : Char}
    (hc : (pyStrip l).head? = some c) : pySpace c = false :=
  head?_dropWhile_not (head?_dropTrail hc)

theorem getLast?_pyStrip_not {l : List Char} {c : Char}
    (hc : (pyStrip l).getLast? = some c) : pySpace c = false :=
  getLast?_dropTrail hc

theorem pyStrip_eq_self {l : List Char}
    (hh : ∀ c, l.head? = some c → pySpace c = false)
    (hl : ∀ c, l.getLast? = some c → pySpace c = false) : pyStrip l = l := by
  rw [pyStrip, dropWhile_eq_self hh, dropTrail_eq_self hl]

theorem map_eq_self_of_fix {f : Char → Char} {l : List Char}
    (h : ∀ c ∈ l, f c = c) : l.map f = l := by
  induction l with
  | nil => rfl
  | cons d ds ih =>
    rw [List.map_cons, h d (List.mem_cons_self _ _),
      ih fun c hc => h c (List.mem_cons_of_mem _ hc)]

/-- Claim C2 (amended): `clean_query` is idempotent on every query that
contains no removable punctuation, i.e. whose characters are all word
characters, whitespace, `?`, `-` or `.`.  In general a second application
can differ, because deleting punctuation may create leading, trailing or
doubled spaces that only the next pass normalizes. -/
theorem clean_query_stable (q : List Char) (h : ∀ c ∈ q, keepChar c = true) :
    clean_query (clean_query q) = clean_query q := by
  have space_keep : keepChar ' ' = true := by decide
  have hmem1 : ∀ c ∈ lowerL (pyStrip q), keepChar c = true := by
    intro c hc
    rcases List.mem_map.mp hc with ⟨d, hd, rfl⟩
    rw [keepChar_toLower]
    exact h d (mem_pyStrip hd)
  have hmem2 : ∀ c ∈ collapseRuns nrtChar ' ' (lowerL (pyStrip q)), keepChar c = true := by
    intro c hc
    rcases mem_collapseAux hc with rfl | ⟨hc', _⟩
    · exact space_keep
    · exact hmem1 c hc'
  have hmem3 : ∀ c ∈ collapseRuns pySpace ' '
      (collapseRuns nrtChar ' ' (lowerL (pyStrip q))), keepChar c = true := by
    intro c hc
    rcases mem_collapseAux hc with rfl | ⟨hc', _⟩
    · exact space_keep
    · exact hmem2 c hc'
  have hclean : clean_query q =
      collapseRuns pySpace ' ' (collapseRuns nrtChar ' ' (lowerL (pyStrip q))) := by
    rw [clean_query]
    exact List.filter_eq_self.mpr hmem3
  have hH1 : ∀ c, (lowerL (pyStrip q)).head? = some c → pySpace c = false := by
    intro c hc
    rw [lowerL, List.head?_map] at hc
    cases hps : (pyStrip q).head? with
    | none =>
      rw [hps] at hc
      simp at hc
    | some d =>
      rw [hps] at hc
      have hcd : Char.toLower d = c := by simpa using hc
      rw [← hcd, pySpace_toLower]
      exact head?_pyStrip_not hps
  have hL1 : ∀ c, (lowerL (pyStrip q)).getLast? = some c → pySpace c = false := by
    intro c hc
    rw [lowerL, List.getLast?_map] at hc
    cases hps : (pyStrip q).getLast? with
    | none =>
      rw [hps] at hc
      simp at hc
    | some d =>
      rw [hps] at hc
      have hcd : Char.toLower d = c := by simpa using hc
      rw [← hcd, pySpace_toLower]
      exact getLast?_pyStrip_not hps
  have not_nrt : ∀ {c : Char}, pySpace c = false → nrtChar c = false := by
    intro c hps
    cases hn : nrtChar c
    · rfl
    · rw [pySpace_of_nrtChar hn] at hps
      exact absurd hps (by simp)
  have hH1n : ∀ c, (lowerL (pyStrip q)).head? = some c → nrtChar c = false :=
    fun c hc => not_nrt (hH1 c hc)
  have hL1n : ∀ c, (lowerL (pyStrip q)).getLast? = some c → nrtChar c = false :=
    fun c hc => not_nrt (hL1 c hc)
  have hq2head : (collapseRuns nrtChar ' ' (lowerL (pyStrip q))).head? =
      (lowerL (pyStrip q)).head? := head?_collapseAux hH1n
  have hq2last : (collapseRuns nrtChar ' ' (lowerL (pyStrip q))).getLast? =
      (lowerL (pyStrip q)).getLast? := getLast?_collapseAux hL1n
  have hH2 : ∀ c, (collapseRuns nrtChar ' ' (lowerL (pyStrip q))).head? = some c →
      pySpace c = false := by
    intro c hc
    rw [hq2head] at hc
    exact hH1 c hc
  have hL2 : ∀ c, (collapseRuns nrtChar ' ' (lowerL (pyStrip q))).getLast? = some c →
      pySpace c = false := by
    intro c hc
    rw [hq2last] at hc
    exact hL1 c hc
  have hq3head : (collapseRuns pySpace ' '
      (collapseRuns nrtChar ' ' (lowerL (pyStrip q)))).head? =
      (collapseRuns nrtChar ' ' (lowerL (pyStrip q))).head? := head?_collapseAux hH2
  have hq3last : (collapseRuns pySpace ' '
      (collapseRuns nrtChar ' ' (lowerL (pyStrip q)))).getLast? =
      (collapseRuns nrtChar ' ' (lowerL (pyStrip q))).getLast? := getLast?_collapseAux hL2
  have hH3 : ∀ c, (collapseRuns pySpace ' '
      (collapseRuns nrtChar ' ' (lowerL (pyStrip q)))).head? = some c →
      pySpace c = false := by
    intro c hc
    rw [hq3head] at hc
    exact hH2 c hc
  have hL3 : ∀ c, (collapseRuns pySpace ' '
      (collapseRuns nrtChar ' ' (lowerL (pyStrip q)))).getLast? = some c →
      pySpace c = false := by
    intro c hc
    rw [hq3last] at hc
    exact hL2 c hc
  have hstrip : pyStrip (collapseRuns pySpace ' '
      (collapseRuns nrtChar ' ' (lowerL (pyStrip q)))) =
      collapseRuns pySpace ' ' (collapseRuns nrtChar ' ' (lowerL (pyStrip q))) :=
    pyStrip_eq_self hH3 hL3
  have hlower : lowerL (collapseRuns pySpace ' '
      (collapseRuns nrtChar ' ' (lowerL (pyStrip q)))) =
      collapseRuns pySpace ' ' (collapseRuns nrtChar ' ' (lowerL (pyStrip q))) := by
    apply map_eq_self_of_fix
    intro c hc
    rcases mem_collapseAux hc with rfl | ⟨hc2, _⟩
    · decide
    · rcases mem_collapseAux hc2 with rfl | ⟨hc1, _⟩
      · decide
      · rcases List.mem_map.mp hc1 with ⟨d, _, rfl⟩
        exact toLower_toLower d
  have hnrt : collapseRuns nrtChar ' ' (collapseRuns pySpace ' '
      (collapseRuns nrtChar ' ' (lowerL (pyStrip q)))) =
      collapseRuns pySpace ' ' (collapseRuns nrtChar ' ' (lowerL (pyStrip q))) := by
    apply collapseAux_eq_self
    intro c hc
    rcases mem_collapseAux hc with rfl | ⟨_, hps⟩
    · decide
    · exact not_nrt hps
  have hsp : collapseRuns pySpace ' ' (collapseRuns pySpace ' '
      (collapseRuns nrtChar ' ' (lowerL (pyStrip q)))) =
      collapseRuns pySpace ' ' (collapseRuns nrtChar ' ' (lowerL (pyStrip q))) :=
    collapseRuns_idem (by decide) _
  have hfilter : (collapseRuns pySpace ' '
      (collapseRuns nrtChar ' ' (lowerL (pyStrip q)))).filter keepChar =
      collapseRuns pySpace ' ' (collapseRuns nrtChar ' ' (lowerL (pyStrip q))) :=
    List.filter_eq_self.mpr hmem3
  rw [hclean, clean_query, hstrip, hlower, hnrt, hsp, hfilter]

/- ### Lemmas about `dedupFirstAux` and index order under `filter` -/

theorem mem_dedupFirstAux {α : Type} [DecidableEq α] {seen l : List α} {x : α} :
    x ∈ dedupFirstAux seen l ↔ x ∈ l ∧ x ∉ seen := by
  induction l generalizing seen with
  | nil => simp [dedupFirstAux]
  | cons d ds ih =>
    by_cases hd : d ∈ seen
    · rw [dedupFirstAux, if_pos hd, ih]
      constructor
      · rintro ⟨hx, hxs⟩
        exact ⟨List.mem_cons_of_mem _ hx, hxs⟩
      · rintro ⟨hx, hxs⟩
        rcases List.mem_cons.mp hx with rfl | hx'
        · exact absurd hd hxs
        · exact ⟨hx', hxs⟩
    · rw [dedupFirstAux, if_neg hd]
      constructor
      · intro hx
        rcases List.mem_cons.mp hx with rfl | hx'
        · exact ⟨List.mem_cons_self _ _, hd⟩
        · rcases ih.mp hx' with ⟨hm, hns⟩
          exact ⟨List.mem_cons_of_mem _ hm, fun hs => hns (List.mem_cons_of_mem _ hs)⟩
      · rintro ⟨hx, hxs⟩
        rcases List.mem_cons.mp hx with rfl | hx'
        · exact List.mem_cons_self _ _
        · by_cases hxd : x = d
          · exact hxd ▸ List.mem_cons_self _ _
          · exact List.mem_cons_of_mem _ (ih.mpr ⟨hx', by
              intro hs
              rcases List.mem_cons.mp hs with h | h
              · exact hxd h
              · exact hxs h⟩)

theorem nodup_dedupFirstAux {α : Type} [DecidableEq α] (seen l : List α) :
    (dedupFirstAux seen l).Nodup := by
  induction l generalizing seen with
  | nil => exact List.nodup_nil
  | cons d ds ih =>
    by_cases hd : d ∈ seen
    · rw [dedupFirstAux, if_pos hd]
      exact ih seen
    · rw [dedupFirstAux, if_neg hd]
      refine List.nodup_cons.mpr ⟨?_, ih _⟩
      intro hmem
      exact (mem_dedupFirstAux.mp hmem).2 (List.mem_cons_self _ _)

theorem pairwise_indexOf_dedupFirstAux {α : Type} [DecidableEq α] (seen l : List α) :
    (dedupFirstAux seen l).Pairwise (fun a b => l.indexOf a < l.indexOf b) := by
  induction l generalizing seen with
  | nil => exact List.Pairwise.nil
  | cons d ds ih =>
    by_cases hd : d ∈ seen
    · rw [dedupFirstAux, if_pos hd]
      refine (ih seen).imp_of_mem ?_
      intro a b ha hb hR
      have had : d ≠ a := fun h => (mem_dedupFirstAux.mp ha).2 (h ▸ hd)
      have hbd : d ≠ b := fun h => (mem_dedupFirstAux.mp hb).2 (h ▸ hd)
      rw [List.indexOf_cons_ne _ had, List.indexOf_cons_ne _ hbd]
      exact Nat.succ_lt_succ hR
    · rw [dedupFirstAux, if_neg hd]
      refine List.pairwise_cons.mpr ⟨?_, ?_⟩
      · intro b hb
        have hbd : d ≠ b := fun h =>
          (mem_dedupFirstAux.mp hb).2 (h ▸ List.mem_cons_self d seen)
        rw [List.indexOf_cons_self, List.indexOf_cons_ne _ hbd]
        exact Nat.succ_pos _
      · refine (ih (d :: seen)).imp_of_mem ?_
        intro a b ha hb hR
        have had : d ≠ a := fun h =>
          (mem_dedupFirstAux.mp ha).2 (h ▸ List.mem_cons_self d seen)
        have hbd : d ≠ b := fun h =>
          (mem_dedupFirstAux.mp hb).2 (h ▸ List.mem_cons_self d seen)
        rw [List.indexOf_cons_ne _ had, List.indexOf_cons_ne _ hbd]
        exact Nat.succ_lt_succ hR

theorem indexOf_filter_lt_indexOf {α : Type} [DecidableEq α] (l : List α) (p : α → Bool)
    {x y : α} (hx : x ∈ l.filter p) (hy : y ∈ l.filter p)
    (hlt : (l.filter p).indexOf x < (l.filter p).indexOf y) :
    l.indexOf x < l.indexOf y := by
  induction l with
  | nil => simp at hx
  | cons d ds ih =>
    by_cases hpd : p d = true
    · rw [List.filter_cons_of_pos hpd] at hx hy hlt
      by_cases hxd : x = d
      · subst hxd
        have hyx : y ≠ x := by
          intro h
          subst h
          rw [List.indexOf_cons_self] at hlt
          exact absurd hlt (Nat.lt_irrefl 0)
        rw [List.indexOf_cons_self, List.indexOf_cons_ne _ (fun h => hyx h.symm)]
        exact Nat.succ_pos _
      · have hyd : y ≠ d := by
          intro h
          subst h
          rw [List.indexOf_cons_self] at hlt
          exact absurd hlt (Nat.not_lt_zero _)
        rw [List.indexOf_cons_ne _ (fun h => hxd h.symm),
          List.indexOf_cons_ne _ (fun h => hyd h.symm)] at hlt
        have hx' : x ∈ ds.filter p := by
          rcases List.mem_cons.mp hx with h | h
          · exact absurd h hxd
          · exact h
        have hy' : y ∈ ds.filter p := by
          rcases List.mem_cons.mp hy with h | h
          · exact absurd h hyd
          · exact h
        rw [List.indexOf_cons_ne _ (fun h => hxd h.symm),
          List.indexOf_cons_ne _ (fun h => hyd h.symm)]
        exact Nat.succ_lt_succ (ih hx' hy' (Nat.lt_of_succ_lt_succ hlt))
    · rw [List.filter_cons_of_neg hpd] at hx hy hlt
      have hxd : x ≠ d := by
        intro h
        exact hpd (h ▸ List.of_mem_filter hx)
      have hyd : y ≠ d := by
        intro h
        exact hpd (h ▸ List.of_mem_filter hy)
      rw [List.indexOf_cons_ne _ (fun h => hxd h.symm),
        List.indexOf_cons_ne _ (fun h => hyd h.symm)]
      exact Nat.succ_lt_succ (ih hx hy hlt)

/- ### Lemmas about `rank_scan` and mean reciprocal rank -/

theorem rank_scan_eq_reciprocal (relevant_docs query_results : List String) :
    ∀ n : Nat, rank_scan relevant_docs (n + 1) query_results =
      (match firstHitIdx relevant_docs query_results with
       | some i => (1 : ℚ) / ((n : ℚ) + (i : ℚ) + 1)
       | none => 0) := by
  induction query_results with
  | nil => intro n; rfl
  | cons d ds ih =>
    intro n
    by_cases hd : relevant_docs.contains d = true
    · rw [rank_scan, if_pos hd, firstHitIdx, if_pos hd]
      norm_num
    · rw [rank_scan, if_neg hd, firstHitIdx, if_neg hd]
      rw [show n + 1 + 1 = (n + 1) + 1 from rfl, ih (n + 1)]
      cases hfi : firstHitIdx relevant_docs ds with
      | none => rfl
      | some i =>
        show (1 : ℚ) / ((n + 1 : ℕ) + (i : ℚ) + 1) = 1 / ((n : ℚ) + ((i + 1 : ℕ) : ℚ) + 1)
        push_cast
        ring_nf

/-- Claim C5: for a non-empty list of per-query ranked result lists,
`mean_reciprocal_rank` returns the average over all queries of the per-query
contribution `1/rank` of the first relevant element (rank 1-indexed), the
contribution being `0` for a list containing no relevant element. -/
theorem mean_reciprocal_rank_spec (results : List (List String))
    (relevant_docs : List String) (h : results ≠ []) :
    mean_reciprocal_rank results relevant_docs =
      (results.map (reciprocal_of_first_hit relevant_docs)).sum / (results.length : ℚ) := by
  have hmap : results.map (fun query_results => rank_scan relevant_docs 1 query_results) =
      results.map (reciprocal_of_first_hit relevant_docs) := by
    apply List.map_congr_left
    intro qr _
    rw [show (1 : Nat) = 0 + 1 from rfl, rank_scan_eq_reciprocal relevant_docs qr 0,
      reciprocal_of_first_hit]
    cases firstHitIdx relevant_docs qr with
    | none => rfl
    | some i =>
      push_cast
      ring_nf
  rw [mean_reciprocal_rank, hmap, if_neg]
  · rw [List.length_map]
  · rw [List.isEmpty_iff]
    intro hmap_nil
    exact h (List.map_eq_nil_iff.mp hmap_nil)

/-- Claim C5 witness: the theorem instantiated at a concrete non-empty input. -/
theorem mean_reciprocal_rank_spec_witness :
    mean_reciprocal_rank [["a", "b"], ["c"]] ["b"] =
      (([["a", "b"], ["c"]] : List (List String)).map (reciprocal_of_first_hit ["b"])).sum /
        (([["a", "b"], ["c"]] : List (List String)).length : ℚ) :=
  mean_reciprocal_rank_spec [["a", "b"], ["c"]] ["b"] (by decide)

/-- Claim C6: `classify_query` assigns exactly one of the four labels by
keyword containment checked in priority order procedural, conceptual,
factual, generic, first match winning; in particular the query
"what are the steps to reset a password", which contains both a procedural
and a factual keyword, is classified procedural. -/
theorem classify_query_priority (query : List Char) :
    (procedural_keywords.any (fun k => containsSubstr k (lowerL query)) = true →
      classify_query query = "procedural") ∧
    (procedural_keywords.any (fun k => containsSubstr k (lowerL query)) = false →
      conceptual_keywords.any (fun k => containsSubstr k (lowerL query)) = true →
      classify_query query = "conceptual") ∧
    (procedural_keywords.any (fun k => containsSubstr k (lowerL query)) = false →
      conceptual_keywords.any (fun k => containsSubstr k (lowerL query)) = false →
      factual_keywords.any (fun k => containsSubstr k (lowerL query)) = true →
      classify_query query = "factual") ∧
    (procedural_keywords.any (fun k => containsSubstr k (lowerL query)) = false →
      conceptual_keywords.any (fun k => containsSubstr k (lowerL query)) = false →
      factual_keywords.any (fun k => containsSubstr k (lowerL query)) = false →
      classify_query query = "generic") ∧
    classify_query (s2l "what are the steps to reset a password") = "procedural" := by
  refine ⟨?_, ?_, ?_, ?_, by decide⟩
  · intro h1
    rw [classify_query, if_pos h1]
  · intro h1 h2
    rw [classify_query, if_neg (by simp [h1]), if_pos h2]
  · intro h1 h2 h3
    rw [classify_query, if_neg (by simp [h1]), if_neg (by simp [h2]), if_pos h3]
  · intro h1 h2 h3
    rw [classify_query, if_neg (by simp [h1]), if_neg (by simp [h2]), if_neg (by simp [h3])]

/-- Claim C6 witness: the first branch of the theorem instantiated at a
concrete procedural-and-factual query. -/
theorem classify_query_priority_witness :
    classify_query (s2l "what are the steps to reset a password") = "procedural" :=
  (classify_query_priority (s2l "what are the steps to reset a password")).1 (by decide)

theorem indexOf_beq_congr {α : Type} (i1 i2 : BEq α) (h1 : @LawfulBEq α i1)
    (h2 : @LawfulBEq α i2) (x : α) (l : List α) :
    @List.indexOf α i1 x l = @List.indexOf α i2 x l := by
  induction l with
  | nil => rfl
  | cons d ds ih =>
    rw [@List.indexOf_cons α d ds x i1, @List.indexOf_cons α d ds x i2, ih]
    congr 1
    rw [Bool.eq_iff_iff, @beq_iff_eq α i1 h1, @beq_iff_eq α i2 h2]

/-- Claim C7: for every input string, `extract_keywords` returns a list with
no duplicate tokens and no stopwords, containing exactly the non-stopword
tokens of the input, listed in order of their first occurrence in the
input's token sequence. -/
theorem extract_keywords_spec (query : List Char) :
    (extract_keywords query).Nodup ∧
    (∀ w ∈ extract_keywords query, w ∉ stopwords) ∧
    (∀ w, w ∈ extract_keywords query ↔ w ∈ tokenize (lowerL query) ∧ w ∉ stopwords) ∧
    (extract_keywords query).Pairwise
      (fun x y => (tokenize (lowerL query)).indexOf x < (tokenize (lowerL query)).indexOf y) := by
  refine ⟨nodup_dedupFirstAux _ _, ?_, ?_, ?_⟩
  · intro w hw
    have hmem := (mem_dedupFirstAux.mp hw).1
    have hp := List.of_mem_filter hmem
    simpa using hp
  · intro w
    constructor
    · intro hw
      have hmem := (mem_dedupFirstAux.mp hw).1
      rcases List.mem_filter.mp hmem with ⟨htok, hp⟩
      exact ⟨htok, by simpa using hp⟩
    · rintro ⟨htok, hstop⟩
      apply mem_dedupFirstAux.mpr
      refine ⟨List.mem_filter.mpr ⟨htok, by simpa using hstop⟩, ?_⟩
      simp
  · have base := pairwise_indexOf_dedupFirstAux ([] : List (List Char))
      ((tokenize (lowerL query)).filter (fun w => decide (w ∉ stopwords)))
    refine base.imp_of_mem ?_
    intro a b ha hb hR
    have h := indexOf_filter_lt_indexOf _ _ (mem_dedupFirstAux.mp ha).1
      (mem_dedupFirstAux.mp hb).1 hR
    rw [indexOf_beq_congr _ instBEqOfDecidableEq inferInstance inferInstance a,
      indexOf_beq_congr _ instBEqOfDecidableEq inferInstance inferInstance b]
    exact h

/-- Claim C7 witness: the membership characterization instantiated at a
concrete query whose token "the" is a stopword and "piano" occurs twice. -/
theorem extract_keywords_spec_witness :
    (s2l "piano") ∈ extract_keywords (s2l "the piano on the piano") ∧
    (s2l "the") ∉ extract_keywords (s2l "the piano on the piano") :=
  ⟨((extract_keywords_spec (s2l "the piano on the piano")).2.2.1 (s2l "piano")).mpr
      (by decide),
    fun h =>
      absurd (((extract_keywords_spec (s2l "the piano on the piano")).2.2.1 (s2l "the")).mp h).2
        (by decide)⟩

/- ### Lemmas about `get_unique_sources` -/

theorem entryKey_mkSourceEntry (p : PyDoc × ℚ) :
    entryKey (mkSourceEntry p.1 p.2) = pairKey p :=
  rfl

theorem mem_get_unique_sources_aux {seen : List (Option MVal × Option MVal)}
    {l : List (PyDoc × ℚ)} {e : SourceEntry} :
    e ∈ get_unique_sources_aux seen l ↔
      ∃ l1 p l2, l = l1 ++ p :: l2 ∧ e = mkSourceEntry p.1 p.2 ∧ pairKey p ∉ seen ∧
        ∀ q ∈ l1, pairKey q ≠ pairKey p := by
  induction l generalizing seen with
  | nil =>
    rw [get_unique_sources_aux]
    simp only [List.not_mem_nil, false_iff]
    rintro ⟨l1, p, l2, hdec, -⟩
    exact List.not_mem_nil p (hdec ▸ List.mem_append_right l1 (List.mem_cons_self p l2))
  | cons a rest ih =>
    by_cases ha : pairKey a ∈ seen
    · rw [get_unique_sources_aux, if_pos ha, ih]
      constructor
      · rintro ⟨l1, p, l2, rfl, he, hps, hfirst⟩
        refine ⟨a :: l1, p, l2, rfl, he, hps, ?_⟩
        intro q hq
        rcases List.mem_cons.mp hq with rfl | hq'
        · intro hkey
          exact hps (hkey ▸ ha)
        · exact hfirst q hq'
      · rintro ⟨l1, p, l2, hdec, he, hps, hfirst⟩
        cases l1 with
        | nil =>
          rw [List.nil_append] at hdec
          injection hdec with h1 h2
          exact absurd (h1 ▸ ha) hps
        | cons b l1x =>
          rw [List.cons_append] at hdec
          injection hdec with h1 h2
          subst h1
          subst h2
          exact ⟨l1x, p, l2, rfl, he, hps,
            fun q hq => hfirst q (List.mem_cons_of_mem _ hq)⟩
    · rw [get_unique_sources_aux, if_neg ha]
      constructor
      · intro hmem
        rcases List.mem_cons.mp hmem with rfl | hmem'
        · exact ⟨[], a, rest, rfl, rfl, ha, by simp⟩
        · rcases ih.mp hmem' with ⟨l1, p, l2, rfl, he, hps, hfirst⟩
          refine ⟨a :: l1, p, l2, rfl, he,
            fun hseen => hps (List.mem_cons_of_mem _ hseen), ?_⟩
          intro q hq
          rcases List.mem_cons.mp hq with rfl | hq'
          · intro hkey
            exact hps (hkey ▸ List.mem_cons_self _ _)
          · exact hfirst q hq'
      · rintro ⟨l1, p, l2, hdec, he, hps, hfirst⟩
        cases l1 with
        | nil =>
          rw [List.nil_append] at hdec
          injection hdec with h1 h2
          subst h1
          exact he ▸ List.mem_cons_self _ _
        | cons b l1x =>
          rw [List.cons_append] at hdec
          injection hdec with h1 h2
          subst h1
          subst h2
          apply List.mem_cons_of_mem
          apply ih.mpr
          refine ⟨l1x, p, l2, rfl, he, ?_,
            fun q hq => hfirst q (List.mem_cons_of_mem _ hq)⟩
          intro hmem
          rcases List.mem_cons.mp hmem with hkey | hseen
          · exact hfirst a (List.mem_cons_self _ _) hkey.symm
          · exact hps hseen

theorem keys_get_unique_sources_aux (seen : List (Option MVal × Option MVal))
    (l : List (PyDoc × ℚ)) :
    ((get_unique_sources_aux seen l).map entryKey).Nodup ∧
      ∀ kk ∈ (get_unique_sources_aux seen l).map entryKey, kk ∉ seen := by
  induction l generalizing seen with
  | nil =>
    rw [get_unique_sources_aux]
    exact ⟨List.nodup_nil, by simp⟩
  | cons a rest ih =>
    by_cases ha : pairKey a ∈ seen
    · rw [get_unique_sources_aux, if_pos ha]
      exact ih seen
    · rw [get_unique_sources_aux, if_neg ha]
      rcases ih (pairKey a :: seen) with ⟨hnd, hnin⟩
      rw [List.map_cons]
      refine ⟨List.nodup_cons.mpr ⟨?_, hnd⟩, ?_⟩
      · intro hmem
        rw [entryKey_mkSourceEntry ⟨a.1, a.2⟩] at hmem
        exact hnin _ hmem (List.mem_cons_self _ _)
      · intro kk hkk
        rcases List.mem_cons.mp hkk with rfl | hkk'
        · rw [entryKey_mkSourceEntry ⟨a.1, a.2⟩]
          exact ha
        · intro hseen
          exact hnin kk hkk' (List.mem_cons_of_mem _ hseen)

theorem key_mem_get_unique_sources_aux (seen : List (Option MVal × Option MVal))
    (l : List (PyDoc × ℚ)) (p : PyDoc × ℚ) (hp : p ∈ l) (hps : pairKey p ∉ seen) :
    pairKey p ∈ (get_unique_sources_aux seen l).map entryKey := by
  induction l generalizing seen with
  | nil => exact absurd hp (List.not_mem_nil p)
  | cons a rest ih =>
    by_cases ha : pairKey a ∈ seen
    · rw [get_unique_sources_aux, if_pos ha]
      rcases List.mem_cons.mp hp with rfl | hp'
      · exact absurd ha hps
      · exact ih seen hp' hps
    · rw [get_unique_sources_aux, if_neg ha, List.map_cons,
        entryKey_mkSourceEntry ⟨a.1, a.2⟩]
      rcases List.mem_cons.mp hp with rfl | hp'
      · exact List.mem_cons_self _ _
      · by_cases hpa : pairKey p = pairKey a
        · exact hpa ▸ List.mem_cons_self _ _
        · refine List.mem_cons_of_mem _ (ih (pairKey a :: seen) hp' ?_)
          intro hmem
          rcases List.mem_cons.mp hmem with h | h
          · exact hpa h
          · exact hps h

/-- Claim C4: `get_unique_sources` keeps exactly one entry per distinct
`(source, page)` key — the first occurrence in input order, discarding every
later duplicate regardless of its score — and each kept entry's score equals
the input score rounded to 4 decimal places. -/
theorem get_unique_sources_spec (l : List (PyDoc × ℚ)) :
    ((get_unique_sources l).map entryKey).Nodup ∧
    (∀ p ∈ l, pairKey p ∈ (get_unique_sources l).map entryKey) ∧
    (∀ e ∈ get_unique_sources l, ∃ l1 p l2, l = l1 ++ p :: l2 ∧
      e = mkSourceEntry p.1 p.2 ∧ e.score = round4 p.2 ∧
      ∀ q ∈ l1, pairKey q ≠ pairKey p) := by
  refine ⟨(keys_get_unique_sources_aux [] l).1, ?_, ?_⟩
  · intro p hp
    exact key_mem_get_unique_sources_aux [] l p hp (List.not_mem_nil _)
  · intro e he
    rcases mem_get_unique_sources_aux.mp he with ⟨l1, p, l2, hdec, hent, -, hfirst⟩
    exact ⟨l1, p, l2, hdec, hent, by rw [hent]; rfl, hfirst⟩

/-- Claim C4 witness: the completeness part of the theorem instantiated on a
concrete input with a duplicated `("a", page 1)` key. -/
theorem get_unique_sources_spec_witness :
    pairKey (⟨"x", [("source", MVal.s "a"), ("page", MVal.i 1)]⟩, (1 : ℚ)) ∈
      (get_unique_sources
        [(⟨"x", [("source", MVal.s "a"), ("page", MVal.i 1)]⟩, (1 : ℚ)),
         (⟨"y", [("source", MVal.s "a"), ("page", MVal.i 1)]⟩, (0 : ℚ)),
         (⟨"z", [("source", MVal.s "b"), ("page", MVal.i 2)]⟩, (0 : ℚ))]).map entryKey :=
  (get_unique_sources_spec _).2.1 _ (List.mem_cons_self _ _)

/- ### Lemmas about `chunk_docs` -/

theorem hasKey_dictSet {m : List (String × MVal)} {k k2 : String} {v : MVal}
    (h : hasKey m k = true) : hasKey (dictSet m k2 v) k = true := by
  rw [dictSet]
  by_cases hex : m.any (fun p => p.1 == k2) = true
  · rw [if_pos hex, hasKey, List.any_map]
    rw [hasKey] at h
    rcases List.any_eq_true.mp h with ⟨p, hp, hpk⟩
    apply List.any_eq_true.mpr
    refine ⟨p, hp, ?_⟩
    show ((if p.1 == k2 then (k2, v) else p).1 == k) = true
    by_cases hk2 : (p.1 == k2) = true
    · rw [if_pos hk2]
      have h1 : p.1 = k := by
        simpa using hpk
      have h2 : p.1 = k2 := by
        simpa using hk2
      simp [← h1, ← h2]
    · rw [if_neg hk2]
      exact hpk
  · rw [if_neg hex, hasKey, List.any_append]
    rw [hasKey] at h
    rw [h]
    rfl

/-- Claim C9: every chunk produced by `chunk_docs` carries metadata equal to
a copy of its parent document's metadata extended with the `chunk_size`
used (independently of what the underlying splitter returned);
consequently, if every input document's metadata contains a `source` key,
so does every output chunk's metadata. -/
theorem chunk_docs_metadata (split : Int → Int → PyDoc → List PyDoc)
    (docs : List PyDoc) (chunk_size chunk_overlap : Int) :
    (∀ chunk ∈ chunk_docs split docs chunk_size chunk_overlap,
      ∃ doc ∈ docs, chunk.metadata = dictSet doc.metadata "chunk_size" (MVal.i chunk_size)) ∧
    ((∀ doc ∈ docs, hasKey doc.metadata "source" = true) →
      ∀ chunk ∈ chunk_docs split docs chunk_size chunk_overlap,
        hasKey chunk.metadata "source" = true) := by
  have hmain : ∀ chunk ∈ chunk_docs split docs chunk_size chunk_overlap,
      ∃ doc ∈ docs, chunk.metadata = dictSet doc.metadata "chunk_size" (MVal.i chunk_size) := by
    intro chunk hc
    rw [chunk_docs] at hc
    rcases List.mem_flatten.mp hc with ⟨inner, hinner, hchunk⟩
    rcases List.mem_map.mp hinner with ⟨doc, hdoc, rfl⟩
    rcases List.mem_map.mp hchunk with ⟨c0, _, rfl⟩
    exact ⟨doc, hdoc, rfl⟩
  refine ⟨hmain, ?_⟩
  intro hsrc chunk hc
  rcases hmain chunk hc with ⟨doc, hdoc, hmeta⟩
  rw [hmeta]
  exact hasKey_dictSet (hsrc doc hdoc)

/-- Claim C9 witness: the source-preservation part instantiated on a
concrete document and an identity-like splitter. -/
theorem chunk_docs_metadata_witness :
    hasKey (PyDoc.mk "hello world"
      (dictSet [("source", MVal.s "notes.md")] "chunk_size" (MVal.i 100))).metadata
      "source" = true :=
  (chunk_docs_metadata (fun _ _ d => [d]) [⟨"hello world", [("source", MVal.s "notes.md")]⟩]
      100 10).2 (by decide) _ (by decide)

/- ### Claim theorems for evaluation metrics and query expansion -/

/-- Claim C1 counterexample: with the same relevant source retrieved twice
within the top 2, `precision_at_k` returns `1` and `recall_at_k` returns
`2`, while the claimed set-intersection formulas give `1/2` and `1`: the
code counts hits with multiplicity, not as a set intersection. -/
theorem precision_recall_not_set_based :
    precision_at_k [⟨"x", [("source", MVal.s "a")]⟩, ⟨"y", [("source", MVal.s "a")]⟩]
        ["a"] 2 = 1 ∧
    setPrecision_at_k [⟨"x", [("source", MVal.s "a")]⟩, ⟨"y", [("source", MVal.s "a")]⟩]
        ["a"] 2 = 1/2 ∧
    recall_at_k [⟨"x", [("source", MVal.s "a")]⟩, ⟨"y", [("source", MVal.s "a")]⟩]
        ["a"] 2 = 2 ∧
    setRecall_at_k [⟨"x", [("source", MVal.s "a")]⟩, ⟨"y", [("source", MVal.s "a")]⟩]
        ["a"] 2 = 1 ∧
    precision_at_k [⟨"x", [("source", MVal.s "a")]⟩, ⟨"y", [("source", MVal.s "a")]⟩]
        ["a"] 2 ≠
      setPrecision_at_k [⟨"x", [("source", MVal.s "a")]⟩, ⟨"y", [("source", MVal.s "a")]⟩]
        ["a"] 2 ∧
    recall_at_k [⟨"x", [("source", MVal.s "a")]⟩, ⟨"y", [("source", MVal.s "a")]⟩]
        ["a"] 2 ≠
      setRecall_at_k [⟨"x", [("source", MVal.s "a")]⟩, ⟨"y", [("source", MVal.s "a")]⟩]
        ["a"] 2 := by
  have h1 : precision_at_k [⟨"x", [("source", MVal.s "a")]⟩, ⟨"y", [("source", MVal.s "a")]⟩]
      ["a"] 2 = 1 := by
    norm_num [precision_at_k, dictGet, srcMem]
  have h2 : setPrecision_at_k [⟨"x", [("source", MVal.s "a")]⟩, ⟨"y", [("source", MVal.s "a")]⟩]
      ["a"] 2 = 1/2 := by
    norm_num [setPrecision_at_k, dictGet, srcMem, dedupFirst, dedupFirstAux]
  have h3 : recall_at_k [⟨"x", [("source", MVal.s "a")]⟩, ⟨"y", [("source", MVal.s "a")]⟩]
      ["a"] 2 = 2 := by
    norm_num [recall_at_k, dictGet, srcMem]
  have h4 : setRecall_at_k [⟨"x", [("source", MVal.s "a")]⟩, ⟨"y", [("source", MVal.s "a")]⟩]
      ["a"] 2 = 1 := by
    norm_num [setRecall_at_k, dictGet, srcMem, dedupFirst, dedupFirstAux]
  refine ⟨h1, h2, h3, h4, ?_, ?_⟩
  · rw [h1, h2]
    norm_num
  · rw [h3, h4]
    norm_num

/-- Claim C1 (amended): `precision_at_k` returns the number of top-`k`
retrieved documents whose source lies in the relevant list, counted WITH
multiplicity, divided by `k` (0 when `k = 0`), and `recall_at_k` returns
that same multiplicity count divided by the length of the relevant list
(0 when it is empty). -/
theorem precision_recall_multiplicity (retrieved_docs : List PyDoc)
    (relevant_docs : List String) (k : Nat) :
    precision_at_k retrieved_docs relevant_docs k =
      (if 0 < k then
        ((((retrieved_docs.take k).map (fun d => dictGet d.metadata "source")).countP
          (fun s => srcMem s relevant_docs) : ℚ)) / (k : ℚ)
      else 0) ∧
    recall_at_k retrieved_docs relevant_docs k =
      (if relevant_docs.isEmpty then 0 else
        ((((retrieved_docs.take k).map (fun d => dictGet d.metadata "source")).countP
          (fun s => srcMem s relevant_docs) : ℚ)) / (relevant_docs.length : ℚ)) := by
  constructor
  · rw [precision_at_k, List.countP_eq_length_filter]
  · rw [recall_at_k, List.countP_eq_length_filter]

/-- Claim C8: `recall_at_k` with an empty relevant list returns 0 for every
retrieved list and every `k`, and `precision_at_k` with `k = 0` returns 0
for every retrieved list and every relevant list; in both cases the guard
prevents the division. -/
theorem precision_recall_boundary :
    (∀ (retrieved_docs : List PyDoc) (relevant_docs : List String),
      precision_at_k retrieved_docs relevant_docs 0 = 0) ∧
    (∀ (retrieved_docs : List PyDoc) (k : Nat),
      recall_at_k retrieved_docs [] k = 0) := by
  exact ⟨fun r rel => rfl, fun r k => rfl⟩

/-- Claim C2 counterexample: `clean_query` is not idempotent: on the input
"! a" it yields " a" (deleting the punctuation creates a leading space),
and a second application strips that space. -/
theorem clean_query_not_idempotent :
    clean_query (clean_query (s2l "! a")) ≠ clean_query (s2l "! a") := by
  decide

/-- Claim C2 witness: the amended idempotence theorem instantiated at a
concrete query free of removable punctuation. -/
theorem clean_query_stable_witness :
    (∀ c ∈ s2l "How  does  FAISS\t indexing work?", keepChar c = true) ∧
    clean_query (clean_query (s2l "How  does  FAISS\t indexing work?")) =
      clean_query (s2l "How  does  FAISS\t indexing work?") :=
  ⟨by decide, clean_query_stable _ (by decide)⟩

/-- Claim C3 counterexample: when constructing the language-model client
fails (`build_llm` raises, e.g. for an unsupported provider), `expand_query`
propagates the error instead of returning the cleaned query: the call to
`build_llm` sits outside the `try` block. -/
theorem expand_query_build_error_propagates :
    expand_query (Except.error (0 : Nat)) (fun (_ : Unit) _ => Except.ok []) (s2l "q") =
      Except.error 0 ∧
    expand_query (Except.error (0 : Nat)) (fun (_ : Unit) _ => Except.ok []) (s2l "q") ≠
      Except.ok (s2l "q") :=
  ⟨rfl, fun h => Except.noConfusion h⟩

/-- Claim C3 (amended): if the language-model invocation inside the `try`
block fails, `expand_query` returns the cleaned query unchanged and
surfaces no error; only a failure of the client construction, which happens
before the `try` block, propagates. -/
theorem expand_query_invoke_fallback {E L : Type} (llm : L)
    (invoke : L → List Char → Except E (List Char)) (query : List Char) (e : E)
    (hfail : invoke llm (promptTemplateText query) = Except.error e) :
    expand_query (Except.ok llm) invoke query = Except.ok query := by
  rw [expand_query, hfail]

/-- Claim C3 witness: the fallback theorem instantiated at a concrete
failing invocation. -/
theorem expand_query_invoke_fallback_witness :
    expand_query (Except.ok () : Except Nat Unit) (fun _ _ => Except.error 7) (s2l "hi") =
      Except.ok (s2l "hi") :=
  expand_query_invoke_fallback () (fun _ _ => Except.error 7) (s2l "hi") 7 rfl

/-- Claim C10: `classify_query` matches keywords as raw substrings rather
than whole words: "show me python" contains the conceptual keyword "how"
only inside the word "show" (it is not one of the query's tokens), yet the
query is classified conceptual instead of generic. -/
theorem classify_query_substring_match :
    classify_query (s2l "show me python") = "conceptual" ∧
    (s2l "how") ∉ tokenize (lowerL (s2l "show me python")) := by
  exact ⟨by decide, by decide⟩
